import Mathlib

/-!
Verification of the CONQ MPMCQueue (unbounded linked-list queue, "ULQ") and the
bk_conq multilist_vector_queue (sharded adaptive queue, "SAQ") against their
natural-language specification.

The embedding is sequential: every operation is modelled as a function on an
explicit state at operation boundaries.  The heap is a list of nodes indexed by
natural-number addresses; a null pointer is `Option.none`.  An operation returns
`none` when the C++ code would dereference a null pointer or spin forever with
no other thread present (the spin loop of `mcDequeue` on a stolen tail).
-/

namespace CONQ

/-- A linked-list node: payload plus an atomic successor pointer
(`std::atomic<listNode*> next`, null = `none`). Mirrors `MPMCQueue::listNode`. -/
structure listNode (T : Type) where
  data : T
  next : Option Nat
deriving DecidableEq, Repr

/-- State of `CONQ::MPMCQueue` at an operation boundary: the heap of allocated
nodes (`mem`, address = index), the four atomic pointer words, and a count of
heap allocations performed so far (each `new listNode` adds one). -/
structure MPMCQueue (T : Type) where
  mem : List (listNode T)
  _head : Option Nat
  _tail : Option Nat
  _freeListHead : Option Nat
  _freeListTail : Option Nat
  allocCount : Nat
deriving DecidableEq, Repr

variable {T : Type}

/-- The constructor: `_head{new listNode}` (address 0), `_freeListHead{new listNode}`
(address 1), `_tail := _head`, and the constructor body stores `_freeListHead`
into `_freeListTail`.  The sentinel payloads are default-constructed; `d` stands
for the default-constructed value of `T`.  Two allocations are performed. -/
def mkQueue (d : T) : MPMCQueue T :=
  { mem := [⟨d, none⟩, ⟨d, none⟩]
    _head := some 0
    _tail := some 0
    _freeListHead := some 1
    _freeListTail := some 1
    allocCount := 2 }

/-- `MPMCQueue::freeListTryDequeue`: load `_freeListTail`; if its `next` is null
report empty, otherwise advance `_freeListTail` to the successor (the CAS always
succeeds sequentially) and hand back the old tail node. -/
def freeListTryDequeue (s : MPMCQueue T) : Option (Option Nat × MPMCQueue T) := do
  let ft ← s._freeListTail
  let nd ← s.mem[ft]?
  match nd.next with
  | none => pure (none, s)
  | some nx => pure (some ft, { s with _freeListTail := some nx })

/-- `MPMCQueue::acquireOrAllocate`: pop a node from the freelist; if none is
available allocate a fresh node (`new listNode{input}`); otherwise overwrite the
recycled node's payload and clear its `next`. -/
def acquireOrAllocate (s : MPMCQueue T) (input : T) : Option (Nat × MPMCQueue T) := do
  let (r, s1) ← freeListTryDequeue s
  match r with
  | none =>
      pure (s1.mem.length,
        { s1 with mem := s1.mem ++ [⟨input, none⟩], allocCount := s1.allocCount + 1 })
  | some n => do
      let _ ← s1.mem[n]?
      pure (n, { s1 with mem := s1.mem.set n ⟨input, none⟩ })

/-- `MPMCQueue::spEnqueue`: obtain a node, store it into `_head.load()->next`,
then store it into `_head`. -/
def spEnqueue (s : MPMCQueue T) (input : T) : Option (MPMCQueue T) := do
  let (node, s1) ← acquireOrAllocate s input
  let h ← s1._head
  let hn ← s1.mem[h]?
  pure { s1 with mem := s1.mem.set h { hn with next := some node }, _head := some node }

/-- `MPMCQueue::mpEnqueue`: obtain a node, exchange `_head` with it, then store
the node into the previous head's `next`. -/
def mpEnqueue (s : MPMCQueue T) (input : T) : Option (MPMCQueue T) := do
  let (node, s1) ← acquireOrAllocate s input
  let prev ← s1._head
  let s2 := { s1 with _head := some node }
  let pn ← s2.mem[prev]?
  pure { s2 with mem := s2.mem.set prev { pn with next := some node } }

/-- `MPMCQueue::freeListEnqueue`: null the retired node's `next`, exchange
`_freeListHead` with it, then link the previous freelist head to it. -/
def freeListEnqueue (s : MPMCQueue T) (item : Nat) : Option (MPMCQueue T) := do
  let nd ← s.mem[item]?
  let mem1 := s.mem.set item { nd with next := none }
  let prev ← s._freeListHead
  let s1 := { s with mem := mem1, _freeListHead := some item }
  let pn ← s1.mem[prev]?
  pure { s1 with mem := s1.mem.set prev { pn with next := some item } }

/-- `MPMCQueue::scDequeue`: load `_tail` and its `next`; if null report empty;
otherwise move the successor's payload out, advance `_tail` to the successor and
push the old tail node onto the freelist.  The returned pair is (result,
out-parameter): the out-parameter is `none` when it was not written. -/
def scDequeue (s : MPMCQueue T) : Option (Bool × Option T × MPMCQueue T) := do
  let t ← s._tail
  let tn ← s.mem[t]?
  match tn.next with
  | none => pure (false, none, s)
  | some nx => do
      let nd ← s.mem[nx]?
      let s1 := { s with _tail := some nx }
      let s2 ← freeListEnqueue s1 t
      pure (true, some nd.data, s2)

/-- `MPMCQueue::mcDequeue`: exchange `_tail` with null; a null prior value means
another consumer holds the tail and the code yield-spins — sequentially that
spin never terminates, modelled as `none`.  Holding the tail, read its `next`;
if null swap the held node back into `_tail` and report empty, otherwise consume
the successor's payload, release `_tail` to the successor and recycle the held
node. -/
def mcDequeue (s : MPMCQueue T) : Option (Bool × Option T × MPMCQueue T) := do
  let t ← s._tail
  let sHeld := { s with _tail := none }
  let tn ← sHeld.mem[t]?
  match tn.next with
  | none => pure (false, none, { sHeld with _tail := some t })
  | some nx => do
      let nd ← sHeld.mem[nx]?
      let s1 := { sHeld with _tail := some nx }
      let s2 ← freeListEnqueue s1 t
      pure (true, some nd.data, s2)

/-- `MPMCQueue::mcDequeueLight`: as `mcDequeue`, but a single failed attempt to
take the tail (the exchange returned null) reports failure immediately, leaving
the state untouched. -/
def mcDequeueLight (s : MPMCQueue T) : Option (Bool × Option T × MPMCQueue T) :=
  match s._tail with
  | none => some (false, none, s)
  | some t => do
      let sHeld := { s with _tail := none }
      let tn ← sHeld.mem[t]?
      match tn.next with
      | none => pure (false, none, { sHeld with _tail := some t })
      | some nx => do
          let nd ← sHeld.mem[nx]?
          let s1 := { sHeld with _tail := some nx }
          let s2 ← freeListEnqueue s1 t
          pure (true, some nd.data, s2)

/-- One public ULQ operation, for reasoning about arbitrary operation
sequences. -/
inductive QOp (T : Type) where
  | spEnq (v : T)
  | mpEnq (v : T)
  | scDeq
  | mcDeq
  | mcDeqLight
deriving DecidableEq, Repr

/-- Run one operation; returns the new state, the list of values enqueued by the
step and the list of values returned by a successful dequeue in the step. -/
def runOp (s : MPMCQueue T) : QOp T → Option (MPMCQueue T × List T × List T)
  | .spEnq v => do let s1 ← spEnqueue s v; pure (s1, [v], [])
  | .mpEnq v => do let s1 ← mpEnqueue s v; pure (s1, [v], [])
  | .scDeq => do let (_, out, s1) ← scDequeue s; pure (s1, [], out.toList)
  | .mcDeq => do let (_, out, s1) ← mcDequeue s; pure (s1, [], out.toList)
  | .mcDeqLight => do let (_, out, s1) ← mcDequeueLight s; pure (s1, [], out.toList)

/-- Run a sequence of operations, accumulating the enqueued and the successfully
dequeued values in order. -/
def runOps (s : MPMCQueue T) : List (QOp T) → Option (MPMCQueue T × List T × List T)
  | [] => some (s, [], [])
  | op :: rest => do
      let (s1, e1, d1) ← runOp s op
      let (s2, e2, d2) ← runOps s1 rest
      pure (s2, e1 ++ e2, d1 ++ d2)

/-- Address of the last node of a pointer chain that starts at `a` and continues
through the addresses `l`. -/
def lastAddr : Nat → List Nat → Nat
  | a, [] => a
  | _, b :: l => lastAddr b l

/-- `Chain mem a l` states that the node at address `a` exists in `mem`, its
`next` pointers walk exactly through the addresses in `l`, and the final node's
`next` is null. -/
def Chain (mem : List (listNode T)) : Nat → List Nat → Prop
  | a, [] => ∃ nd, mem[a]? = some nd ∧ nd.next = none
  | a, b :: l => (∃ nd, mem[a]? = some nd ∧ nd.next = some b) ∧ Chain mem b l

/-- The node at address `a` exists and carries payload `v`. -/
def hasData (mem : List (listNode T)) (a : Nat) (v : T) : Prop :=
  ∃ nd, mem[a]? = some nd ∧ nd.data = v

/-- The queue-shape invariant.  `pending` is the list of values currently in the
queue (front first) and `flen` the number of recyclable freelist nodes.  The
main list runs from the sentinel `_tail` through `mAddrs` to `_head`; the
freelist runs from `_freeListTail` through `fAddrs` to `_freeListHead`; all of
these addresses are pairwise distinct. -/
def Inv (s : MPMCQueue T) (pending : List T) (flen : Nat) : Prop :=
  ∃ t mAddrs ft fAddrs,
    s._tail = some t ∧
    s._head = some (lastAddr t mAddrs) ∧
    s._freeListTail = some ft ∧
    s._freeListHead = some (lastAddr ft fAddrs) ∧
    Chain s.mem t mAddrs ∧
    Chain s.mem ft fAddrs ∧
    List.Forall₂ (hasData s.mem) mAddrs pending ∧
    flen = fAddrs.length ∧
    (t :: mAddrs ++ ft :: fAddrs).Nodup

/-- As `Inv`, with one extra node at address `n` holding payload `v` and a null
`next`, detached from both lists (the state after `acquireOrAllocate` has
prepared a node, before it is spliced in). -/
def InvH (s : MPMCQueue T) (pending : List T) (flen : Nat) (n : Nat) (v : T) : Prop :=
  ∃ t mAddrs ft fAddrs,
    s._tail = some t ∧
    s._head = some (lastAddr t mAddrs) ∧
    s._freeListTail = some ft ∧
    s._freeListHead = some (lastAddr ft fAddrs) ∧
    Chain s.mem t mAddrs ∧
    Chain s.mem ft fAddrs ∧
    List.Forall₂ (hasData s.mem) mAddrs pending ∧
    flen = fAddrs.length ∧
    s.mem[n]? = some ⟨v, none⟩ ∧
    (n :: t :: mAddrs ++ ft :: fAddrs).Nodup

end CONQ

namespace bk_conq

/-!
The sharded adaptive queue `bk_conq::multilist_vector_queue`.  Its subqueue
type `list_queue` is not under src; per the specification (sections 2 and 4.1)
the subqueue is the unbounded linked queue, embedded above as `CONQ.MPMCQueue`.
The per-thread state (`thread_local static` hitlists and producer indices) is
modelled explicitly: consumers pass and receive their hitlist, and the
producer-side caches are association lists keyed by a thread identifier.
-/

variable {T : Type}

/-- `multilist_vector_queue::hitlist_sequence`: the identity permutation
0, 1, ..., n-1 (a vector filled by `std::iota`). -/
def hitlist_sequence (n : Nat) : List Nat := List.range n

/-- `std::iter_swap` on positions `i` and `j` of a list; out-of-range positions
leave the list unchanged (the source never passes them). -/
def iterSwap (l : List Nat) (i j : Nat) : List Nat :=
  match l[i]?, l[j]? with
  | some a, some b => (l.set i b).set j a
  | _, _ => l

/-- The hitlist update loop after a hit at position `k`:
`for (auto it2 = hitlist.begin(); it2 != it; ++it2) std::iter_swap(it, it2);`
swaps the hit slot `k` with each position 0, ..., k-1 in turn. -/
def hitlistUpdate (hl : List Nat) (k : Nat) : List Nat :=
  (List.range k).foldl (fun acc i => iterSwap acc k i) hl

/-- One scan loop of the SAQ dequeues, parameterised by the subqueue dequeue
operation `dq` (the source writes the loop out once per operation, with
`sc_dequeue`, `mc_dequeue_light` or `mc_dequeue` as the call).  `hl` is the full
hitlist (for the update on a hit), `j` the position of the current element,
and the last argument the remaining suffix of the hitlist.  On a hit at
position `j` the subqueue's new state is stored and the updated hitlist
returned; when the suffix is exhausted the scan reports false with everything
unchanged. -/
def scanWith (dq : CONQ.MPMCQueue T → Option (Bool × Option T × CONQ.MPMCQueue T))
    (hl : List Nat) : Nat → List (CONQ.MPMCQueue T) → List Nat →
    Option (Bool × Option T × List (CONQ.MPMCQueue T) × List Nat)
  | _, qs, [] => some (false, none, qs, hl)
  | j, qs, i :: rest => do
      let q ← qs[i]?
      let (b, out, q1) ← dq q
      if b then pure (true, out, qs.set i q1, hitlistUpdate hl j)
      else scanWith dq hl (j + 1) (qs.set i q1) rest

/-- `multilist_vector_queue::sc_dequeue` (no-index overload): one pass over
the hitlist using the subqueue single-consumer dequeue. -/
def sc_dequeue (qs : List (CONQ.MPMCQueue T)) (hl : List Nat) :
    Option (Bool × Option T × List (CONQ.MPMCQueue T) × List Nat) :=
  scanWith CONQ.scDequeue hl 0 qs hl

/-- `multilist_vector_queue::mc_dequeue` (no-index overload): a first pass
using the non-spinning `mc_dequeue_light` on each subqueue, then, only when
that pass produced nothing, a second pass using the spinning `mc_dequeue`. -/
def mc_dequeue (qs : List (CONQ.MPMCQueue T)) (hl : List Nat) :
    Option (Bool × Option T × List (CONQ.MPMCQueue T) × List Nat) := do
  let (b, out, qs1, hl1) ← scanWith CONQ.mcDequeueLight hl 0 qs hl
  if b then pure (true, out, qs1, hl1)
  else scanWith CONQ.mcDequeue hl1 0 qs1 hl1

/-- State of a `multilist_vector_queue`: the vector of subqueues, the shared
producer counter `_enqueue_indx`, and the two families of `thread_local static
size_t indx` caches — one per function template (`sp_enqueue_forward` and
`mp_enqueue_forward` each have their own), modelled as association lists from
thread identifier to cached subqueue index. -/
structure multilist_vector_queue (T : Type) where
  _q : List (CONQ.MPMCQueue T)
  _enqueue_indx : Nat
  spIndx : List (Nat × Nat)
  mpIndx : List (Nat × Nat)
deriving DecidableEq, Repr

/-- `multilist_vector_queue(size_t subqueues)`: n default-constructed
subqueues, counter 0, no thread assigned yet. -/
def mkMLQ (d : T) (n : Nat) : multilist_vector_queue T :=
  { _q := List.replicate n (CONQ.mkQueue d)
    _enqueue_indx := 0
    spIndx := []
    mpIndx := [] }

/-- `multilist_vector_queue::mp_enqueue_forward(U&&)` called from thread `tid`:
on the thread's first call, fetch-and-increment `_enqueue_indx` and cache the
old value modulo the subqueue count as this thread's index; then enqueue into
that subqueue with the ULQ multi-producer enqueue.  The source is a function
template whose `thread_local static size_t indx` is one object per template
instantiation (`U = T` for rvalue calls, `U = const T&` for lvalue calls);
`mpIndx` models the cache of one such instantiation, so runs through this
definition model programs whose auto-routed mp-enqueues all use one
instantiation. -/
def mp_enqueue_forward (m : multilist_vector_queue T) (tid : Nat) (v : T) :
    Option (multilist_vector_queue T) :=
  match m.mpIndx.lookup tid with
  | some indx => do
      let q ← m._q[indx]?
      let q1 ← CONQ.mpEnqueue q v
      pure { m with _q := m._q.set indx q1 }
  | none =>
      let indx := m._enqueue_indx % m._q.length
      let m1 := { m with
        _enqueue_indx := m._enqueue_indx + 1
        mpIndx := (tid, indx) :: m.mpIndx }
      do
        let q ← m1._q[indx]?
        let q1 ← CONQ.mpEnqueue q v
        pure { m1 with _q := m1._q.set indx q1 }

/-- `multilist_vector_queue::sp_enqueue_forward(U&&)`: textually the same body
as `mp_enqueue_forward`, but with its own `thread_local static` index cache
(`spIndx`) — in the source a distinct static object per instantiation of this
separate template, so a thread that uses both sp and mp auto-routed enqueues
holds two independent cached indices and consumes two counter slots. -/
def sp_enqueue_forward (m : multilist_vector_queue T) (tid : Nat) (v : T) :
    Option (multilist_vector_queue T) :=
  match m.spIndx.lookup tid with
  | some indx => do
      let q ← m._q[indx]?
      let q1 ← CONQ.mpEnqueue q v
      pure { m with _q := m._q.set indx q1 }
  | none =>
      let indx := m._enqueue_indx % m._q.length
      let m1 := { m with
        _enqueue_indx := m._enqueue_indx + 1
        spIndx := (tid, indx) :: m.spIndx }
      do
        let q ← m1._q[indx]?
        let q1 ← CONQ.mpEnqueue q v
        pure { m1 with _q := m1._q.set indx q1 }

/-- `multilist_vector_queue::mp_enqueue_forward(U&&, size_t)`: the explicit
index overload enqueues straight into `_q[index]`, bypassing the per-thread
assignment (no cache or counter is consulted or changed). -/
def mp_enqueue_at (m : multilist_vector_queue T) (v : T) (index : Nat) :
    Option (multilist_vector_queue T) := do
  let q ← m._q[index]?
  let q1 ← CONQ.mpEnqueue q v
  pure { m with _q := m._q.set index q1 }

/-- `multilist_vector_queue::sp_enqueue_forward(U&&, size_t)`: also delegates
to the subqueue multi-producer enqueue at the given index. -/
def sp_enqueue_at (m : multilist_vector_queue T) (v : T) (index : Nat) :
    Option (multilist_vector_queue T) := do
  let q ← m._q[index]?
  let q1 ← CONQ.mpEnqueue q v
  pure { m with _q := m._q.set index q1 }

/-- Run a sequence of auto-routed multi-producer enqueues, each tagged with the
calling thread's identifier. -/
def runMpEnqueues (m : multilist_vector_queue T) :
    List (Nat × T) → Option (multilist_vector_queue T)
  | [] => some m
  | (tid, v) :: rest => do
      let m1 ← mp_enqueue_forward m tid v
      runMpEnqueues m1 rest

/-- The thread identifiers of `l` that are not in `seen`, listed in order of
first occurrence. -/
def distinctFirsts (seen : List Nat) : List Nat → List Nat
  | [] => []
  | t :: rest =>
      if t ∈ seen then distinctFirsts seen rest
      else t :: distinctFirsts (t :: seen) rest

/-- The light (non-spinning) dequeue of subqueue `i` fails and leaves the
subqueue unchanged. -/
def lightFailsAt (qs : List (CONQ.MPMCQueue T)) (i : Nat) : Prop :=
  ∃ q, qs[i]? = some q ∧ CONQ.mcDequeueLight q = some (false, none, q)

/-- The spinning dequeue of subqueue `i` fails and leaves the subqueue
unchanged. -/
def spinFailsAt (qs : List (CONQ.MPMCQueue T)) (i : Nat) : Prop :=
  ∃ q, qs[i]? = some q ∧ CONQ.mcDequeue q = some (false, none, q)

/-- Every subqueue of the vector satisfies the ULQ shape invariant. -/
def QsValid (qs : List (CONQ.MPMCQueue T)) : Prop :=
  ∀ (i : Nat) (q : CONQ.MPMCQueue T), qs[i]? = some q → ∃ p f, CONQ.Inv q p f

end bk_conq

namespace CONQ

theorem lastAddr_concat (a b : Nat) (l : List Nat) : lastAddr a (l ++ [b]) = b := by
  induction l generalizing a with
  | nil => rfl
  | cons c l ih => simpa [lastAddr] using ih c

theorem lastAddr_mem (a : Nat) (l : List Nat) : lastAddr a l ∈ a :: l := by
  induction l generalizing a with
  | nil => simp [lastAddr]
  | cons c l ih =>
      rcases List.mem_cons.mp (ih c) with h | h
      · simp [lastAddr, h]
      · simp [lastAddr, List.mem_cons.mpr (Or.inr h)]

theorem chain_exists_node {mem : List (listNode T)} {a : Nat} {l : List Nat}
    (h : Chain mem a l) {x : Nat} (hx : x ∈ a :: l) : ∃ nd, mem[x]? = some nd := by
  induction l generalizing a with
  | nil =>
      rcases h with ⟨nd, hnd, _⟩
      rcases List.mem_cons.mp hx with rfl | hfalse
      · exact ⟨nd, hnd⟩
      · simp at hfalse
  | cons b l ih =>
      rcases h with ⟨⟨nd, hnd, _⟩, hrest⟩
      rcases List.mem_cons.mp hx with rfl | hmem
      · exact ⟨nd, hnd⟩
      · exact ih hrest hmem

theorem chain_lt_length {mem : List (listNode T)} {a : Nat} {l : List Nat}
    (h : Chain mem a l) {x : Nat} (hx : x ∈ a :: l) : x < mem.length := by
  rcases chain_exists_node h hx with ⟨nd, hnd⟩
  rcases List.getElem?_eq_some.mp hnd with ⟨hlt, _⟩
  exact hlt

theorem chain_set_outside {mem : List (listNode T)} {a : Nat} {l : List Nat}
    (h : Chain mem a l) {x : Nat} (hx : x ∉ a :: l) (nd : listNode T) :
    Chain (mem.set x nd) a l := by
  induction l generalizing a with
  | nil =>
      rcases h with ⟨an, han, hnx⟩
      have hax : x ≠ a := by
        intro he; exact hx (by simp [he])
      exact ⟨an, by rw [List.getElem?_set_ne hax]; exact han, hnx⟩
  | cons b l ih =>
      rcases h with ⟨⟨an, han, hnx⟩, hrest⟩
      have hax : x ≠ a := by
        intro he; exact hx (by simp [he])
      refine ⟨⟨an, by rw [List.getElem?_set_ne hax]; exact han, hnx⟩, ?_⟩
      refine ih hrest ?_
      intro hmem
      exact hx (List.mem_cons.mpr (Or.inr hmem))

theorem chain_append_right {mem : List (listNode T)} {a : Nat} {l : List Nat}
    (h : Chain mem a l) (ext : List (listNode T)) : Chain (mem ++ ext) a l := by
  induction l generalizing a with
  | nil =>
      rcases h with ⟨an, han, hnx⟩
      have hlt : a < mem.length := (List.getElem?_eq_some.mp han).1
      exact ⟨an, by rw [List.getElem?_append_left hlt]; exact han, hnx⟩
  | cons b l ih =>
      rcases h with ⟨⟨an, han, hnx⟩, hrest⟩
      have hlt : a < mem.length := (List.getElem?_eq_some.mp han).1
      exact ⟨⟨an, by rw [List.getElem?_append_left hlt]; exact han, hnx⟩, ih hrest⟩

theorem chain_snoc {mem : List (listNode T)} {b : Nat} :
    ∀ (l : List Nat) (a : Nat) (hn : listNode T),
      Chain mem a l → (a :: l).Nodup → mem[lastAddr a l]? = some hn →
      b ∉ a :: l →
      ∀ bn : listNode T,
        (mem.set (lastAddr a l) { hn with next := some b })[b]? = some bn →
        bn.next = none →
        Chain (mem.set (lastAddr a l) { hn with next := some b }) a (l ++ [b]) := by
  intro l
  induction l with
  | nil =>
      intro a hn h hnd hget hb bn hbget hbnx
      rcases h with ⟨an, han, _⟩
      have hlt : a < mem.length := (List.getElem?_eq_some.mp han).1
      refine ⟨⟨{ hn with next := some b }, ?_, rfl⟩, ⟨bn, hbget, hbnx⟩⟩
      simpa [lastAddr] using List.getElem?_set_self (l := mem)
        (a := { hn with next := some b }) (by simpa [lastAddr] using hlt)
  | cons c l ih =>
      intro a hn h hnd hget hb bn hbget hbnx
      rcases h with ⟨⟨an, han, hnx⟩, hrest⟩
      have hne : lastAddr c l ≠ a := by
        intro he
        have : a ∈ c :: l := he ▸ lastAddr_mem c l
        exact (List.nodup_cons.mp hnd).1 this
      refine ⟨⟨an, ?_, hnx⟩, ?_⟩
      · rw [show lastAddr a (c :: l) = lastAddr c l from rfl, List.getElem?_set_ne hne]
        exact han
      · exact ih c hn hrest (List.nodup_cons.mp hnd).2 hget
          (fun hmem => hb (List.mem_cons.mpr (Or.inr hmem))) bn hbget hbnx

theorem forall2_hasData_set_ne {mem : List (listNode T)} {l : List Nat} {p : List T}
    (h : List.Forall₂ (hasData mem) l p) {x : Nat} (hx : x ∉ l) (nd : listNode T) :
    List.Forall₂ (hasData (mem.set x nd)) l p := by
  induction h with
  | nil => exact List.Forall₂.nil
  | cons hd tl ih =>
      rename_i a v l' p'
      rcases hd with ⟨an, han, hdata⟩
      have hax : x ≠ a := fun he => hx (by simp [he])
      refine List.Forall₂.cons ⟨an, ?_, hdata⟩ (ih (fun hm => hx (List.mem_cons.mpr (Or.inr hm))))
      rw [List.getElem?_set_ne hax]; exact han

theorem forall2_hasData_set_next {mem : List (listNode T)} {l : List Nat} {p : List T}
    (h : List.Forall₂ (hasData mem) l p) {x : Nat} {nd : listNode T}
    (hget : mem[x]? = some nd) (nx : Option Nat) :
    List.Forall₂ (hasData (mem.set x { nd with next := nx })) l p := by
  induction h with
  | nil => exact List.Forall₂.nil
  | cons hd tl ih =>
      rename_i a v l' p'
      rcases hd with ⟨an, han, hdata⟩
      refine List.Forall₂.cons ?_ ih
      by_cases hax : x = a
      · subst hax
        have hlt : x < mem.length := (List.getElem?_eq_some.mp hget).1
        have : an = nd := by
          rw [han] at hget
          exact Option.some_inj.mp hget
        exact ⟨{ nd with next := nx }, List.getElem?_set_self hlt, by simp [← this, hdata]⟩
      · exact ⟨an, by rw [List.getElem?_set_ne hax]; exact han, hdata⟩

theorem forall2_hasData_append {mem : List (listNode T)} {l : List Nat} {p : List T}
    (h : List.Forall₂ (hasData mem) l p) (ext : List (listNode T)) :
    List.Forall₂ (hasData (mem ++ ext)) l p := by
  induction h with
  | nil => exact List.Forall₂.nil
  | cons hd tl ih =>
      rename_i a v l' p'
      rcases hd with ⟨an, han, hdata⟩
      have hlt : a < mem.length := (List.getElem?_eq_some.mp han).1
      exact List.Forall₂.cons ⟨an, by rw [List.getElem?_append_left hlt]; exact han, hdata⟩ ih

theorem nodup_parts {t : Nat} {m f : List Nat} (h : (t :: (m ++ f)).Nodup) :
    t ∉ m ∧ t ∉ f ∧ m.Nodup ∧ f.Nodup ∧ ∀ x ∈ m, x ∉ f := by
  rcases List.nodup_cons.mp h with ⟨htm, happ⟩
  rcases List.nodup_append.mp happ with ⟨hm, hf, hdisj⟩
  refine ⟨fun hx => htm (List.mem_append.mpr (Or.inl hx)),
    fun hx => htm (List.mem_append.mpr (Or.inr hx)), hm, hf, ?_⟩
  intro x hx hxf
  exact hdisj hx hxf

theorem acquireOrAllocate_sim {s : MPMCQueue T} {pending : List T} {flen : Nat}
    (h : Inv s pending flen) (v : T) :
    ∃ n s1, acquireOrAllocate s v = some (n, s1) ∧
      InvH s1 pending (flen - 1) n v ∧
      s1.allocCount = s.allocCount + (if flen = 0 then 1 else 0) := by
  obtain ⟨t, mAddrs, ft, fAddrs, htail, hhead, hft, hfh, hchainM, hchainF, hdata,
    hflen, hnodup⟩ := h
  cases fAddrs with
  | nil =>
      obtain ⟨ftn, hftn, hftnx⟩ := hchainF
      refine ⟨s.mem.length,
        { s with mem := s.mem ++ [⟨v, none⟩], allocCount := s.allocCount + 1 },
        ?_, ?_, ?_⟩
      · simp [acquireOrAllocate, freeListTryDequeue, hft, hftn, hftnx]
      · refine ⟨t, mAddrs, ft, [], htail, hhead, hft, hfh,
          chain_append_right hchainM _, ⟨ftn, ?_, hftnx⟩,
          forall2_hasData_append hdata _, by simp [hflen], ?_, ?_⟩
        · exact (List.getElem?_append_left (List.getElem?_eq_some.mp hftn).1) ▸ hftn
        · simp [List.getElem?_concat_length]
        · refine List.nodup_cons.mpr ⟨?_, hnodup⟩
          intro hmem
          rcases List.mem_cons.mp hmem with he | hmem2
          · have h1 := chain_lt_length hchainM (List.mem_cons_self t mAddrs)
            omega
          · rcases List.mem_append.mp hmem2 with hm | hfm
            · have h1 := chain_lt_length hchainM (List.mem_cons.mpr (Or.inr hm))
              omega
            · rcases List.mem_cons.mp hfm with he | hfalse
              · have h1 : ft < s.mem.length := (List.getElem?_eq_some.mp hftn).1
                omega
              · simp at hfalse
      · simp [hflen]
  | cons f1 rest =>
      obtain ⟨⟨ftn, hftn, hftnx⟩, hchainF1⟩ := hchainF
      have hftlt : ft < s.mem.length := (List.getElem?_eq_some.mp hftn).1
      obtain ⟨htm, htf, hmnd, hfnd, hdisj⟩ := nodup_parts hnodup
      have hftm : ft ∉ mAddrs := fun hx => hdisj ft hx (List.mem_cons_self _ _)
      have hftt : ft ≠ t := fun he => htf (he ▸ List.mem_cons_self ft (f1 :: rest))
      have hftf : ft ∉ f1 :: rest := (List.nodup_cons.mp hfnd).1
      refine ⟨ft,
        { s with _freeListTail := some f1, mem := s.mem.set ft ⟨v, none⟩ },
        ?_, ?_, ?_⟩
      · simp [acquireOrAllocate, freeListTryDequeue, hft, hftn, hftnx]
      · refine ⟨t, mAddrs, f1, rest, htail, hhead, rfl, hfh,
          chain_set_outside hchainM ?_ _, chain_set_outside hchainF1 hftf _,
          forall2_hasData_set_ne hdata hftm _, by simp [hflen], ?_, ?_⟩
        · intro hmem
          rcases List.mem_cons.mp hmem with he | hm
          · exact hftt he
          · exact hftm hm
        · simpa using List.getElem?_set_self hftlt
        · have hperm : (t :: (mAddrs ++ ft :: (f1 :: rest))).Perm
              (ft :: t :: (mAddrs ++ f1 :: rest)) :=
            (List.Perm.cons t List.perm_middle).trans (List.Perm.swap ft t _)
          exact hperm.nodup hnodup
      · simp [hflen]

theorem spEnqueue_sim {s : MPMCQueue T} {pending : List T} {flen : Nat}
    (h : Inv s pending flen) (v : T) :
    ∃ s2, spEnqueue s v = some s2 ∧ Inv s2 (pending ++ [v]) (flen - 1) ∧
      s2.allocCount = s.allocCount + (if flen = 0 then 1 else 0) := by
  obtain ⟨n, s1, hacq, hInvH, halloc⟩ := acquireOrAllocate_sim h v
  obtain ⟨t, mAddrs, ft, fAddrs, htail, hhead, hft, hfh, hchainM, hchainF, hdata,
    hflen, hgetn, hnodup⟩ := hInvH
  obtain ⟨hnmem, hnodup1⟩ := List.nodup_cons.mp hnodup
  obtain ⟨htm, htf, hmnd, hfnd, hdisj⟩ := nodup_parts hnodup1
  have hnTM : n ∉ t :: mAddrs := by
    intro hx
    rcases List.mem_cons.mp hx with he | hm
    · exact hnmem (by simp [he])
    · exact hnmem (by simp [hm])
  have hhdTM : lastAddr t mAddrs ∈ t :: mAddrs := lastAddr_mem t mAddrs
  obtain ⟨hn, hhd⟩ := chain_exists_node hchainM hhdTM
  have hnhd : n ≠ lastAddr t mAddrs := fun he => hnTM (he ▸ hhdTM)
  have hhdF : lastAddr t mAddrs ∉ ft :: fAddrs := by
    rcases List.mem_cons.mp hhdTM with he | hm
    · rw [he]; exact htf
    · exact hdisj _ hm
  refine ⟨{ s1 with
      mem := s1.mem.set (lastAddr t mAddrs) { hn with next := some n }
      _head := some n }, ?_, ?_, ?_⟩
  · simp [spEnqueue, hacq, hhead, hhd]
  · have hbget : (s1.mem.set (lastAddr t mAddrs) { hn with next := some n })[n]? =
        some ⟨v, none⟩ := by
      rw [List.getElem?_set_ne (fun he => hnhd he.symm)]
      exact hgetn
    refine ⟨t, mAddrs ++ [n], ft, fAddrs, by simp [htail], by simp [lastAddr_concat],
      by simp [hft], by simp [hfh], ?_, ?_, ?_, by simp [hflen], ?_⟩
    · exact chain_snoc mAddrs t hn hchainM (List.nodup_cons.mpr ⟨htm, hmnd⟩) hhd hnTM
        ⟨v, none⟩ hbget rfl
    · exact chain_set_outside hchainF hhdF _
    · refine List.rel_append (forall2_hasData_set_next hdata hhd (some n)) ?_
      exact List.Forall₂.cons ⟨⟨v, none⟩, hbget, rfl⟩ List.Forall₂.nil
    · have hperm : (n :: t :: (mAddrs ++ ft :: fAddrs)).Perm
          (t :: (mAddrs ++ n :: (ft :: fAddrs))) :=
        (List.Perm.swap t n _).trans (List.Perm.cons t List.perm_middle.symm)
      have := hperm.nodup hnodup
      simpa [List.append_assoc] using this
  · simpa using halloc

theorem mpEnqueue_eq_spEnqueue (s : MPMCQueue T) (v : T) :
    mpEnqueue s v = spEnqueue s v := by
  unfold mpEnqueue spEnqueue
  cases hacq : acquireOrAllocate s v with
  | none => rfl
  | some p =>
      obtain ⟨n, s1⟩ := p
      cases hh : s1._head with
      | none => simp [hh]
      | some hd =>
          cases hg : s1.mem[hd]? with
          | none => simp [hh, hg]
          | some hn => simp [hh, hg]

theorem tail_eta {s : MPMCQueue T} {t : Nat} (h : s._tail = some t) :
    ({ s with _tail := some t } : MPMCQueue T) = s := by
  cases s
  simp only [MPMCQueue.mk.injEq]
  simp_all

theorem scDequeue_sim_empty {s : MPMCQueue T} {flen : Nat} (h : Inv s [] flen) :
    scDequeue s = some (false, none, s) := by
  obtain ⟨t, mAddrs, ft, fAddrs, htail, hhead, hft, hfh, hchainM, hchainF, hdata,
    hflen, hnodup⟩ := h
  have hm : mAddrs = [] := List.forall₂_nil_right_iff.mp hdata
  subst hm
  obtain ⟨tn, htn, htnx⟩ := hchainM
  simp [scDequeue, htail, htn, htnx]

theorem scDequeue_sim_cons {s : MPMCQueue T} {v : T} {rest : List T} {flen : Nat}
    (h : Inv s (v :: rest) flen) :
    ∃ s2, scDequeue s = some (true, some v, s2) ∧ Inv s2 rest (flen + 1) ∧
      s2.allocCount = s.allocCount := by
  obtain ⟨t, mAddrs, ft, fAddrs, htail, hhead, hft, hfh, hchainM, hchainF, hdata,
    hflen, hnodup⟩ := h
  obtain ⟨a1, more, ha1v, hdata1, hmeq⟩ := List.forall₂_cons_right_iff.mp hdata
  subst hmeq
  obtain ⟨⟨tn, htn, htnx⟩, hchain1⟩ := hchainM
  obtain ⟨a1n, ha1, ha1data⟩ := ha1v
  obtain ⟨htm, htf, hmnd, hfnd, hdisj⟩ := nodup_parts hnodup
  have htltm : t < s.mem.length := (List.getElem?_eq_some.mp htn).1
  have hfhMem : lastAddr ft fAddrs ∈ ft :: fAddrs := lastAddr_mem ft fAddrs
  obtain ⟨fhn, hfhn⟩ := chain_exists_node hchainF hfhMem
  have htfh : t ≠ lastAddr ft fAddrs := fun he => htf (he ▸ hfhMem)
  have hfhNotM : lastAddr ft fAddrs ∉ a1 :: more := fun hx => hdisj _ hx hfhMem
  have hfhn1 : (s.mem.set t { tn with next := none })[lastAddr ft fAddrs]? =
      some fhn := by
    rw [List.getElem?_set_ne htfh]; exact hfhn
  refine ⟨{ s with
      _tail := some a1
      _freeListHead := some t
      mem := (s.mem.set t { tn with next := none }).set (lastAddr ft fAddrs)
        { fhn with next := some t } }, ?_, ?_, ?_⟩
  · simp [scDequeue, freeListEnqueue, htail, htn, htnx, ha1, hfh, hfhn1, ha1data]
  · have hbget : ((s.mem.set t { tn with next := none }).set (lastAddr ft fAddrs)
        { fhn with next := some t })[t]? = some { tn with next := none } := by
      rw [List.getElem?_set_ne (Ne.symm htfh)]
      exact List.getElem?_set_self htltm
    refine ⟨a1, more, ft, fAddrs ++ [t], by simp, by simp [hhead, lastAddr], by simp [hft],
      by simp [lastAddr_concat], ?_, ?_, ?_, by simp [hflen], ?_⟩
    · exact chain_set_outside (chain_set_outside hchain1 htm _) hfhNotM _
    · exact chain_snoc fAddrs ft fhn (chain_set_outside hchainF htf _) hfnd hfhn1 htf
        { tn with next := none } hbget rfl
    · exact forall2_hasData_set_next (forall2_hasData_set_next hdata1 htn none)
        hfhn1 (some t)
    · have hperm : (t :: ((a1 :: more) ++ ft :: fAddrs)).Perm
          (a1 :: ((more ++ ft :: fAddrs) ++ [t])) :=
        (List.Perm.swap a1 t _).trans
          (List.Perm.cons a1 (List.perm_append_singleton t _).symm)
      have := hperm.nodup hnodup
      simpa [List.append_assoc] using this
  · simp

theorem mcDequeue_eq_sc {s : MPMCQueue T} {t : Nat} (h : s._tail = some t) :
    mcDequeue s = scDequeue s := by
  cases hg : s.mem[t]? with
  | none => simp [mcDequeue, scDequeue, h, hg]
  | some tn =>
      cases hx : tn.next with
      | none =>
          have he := tail_eta h
          simp [mcDequeue, scDequeue, h, hg, hx]
          cases s
          simp_all
      | some nx => simp [mcDequeue, scDequeue, h, hg, hx]

theorem mcDequeueLight_eq_sc {s : MPMCQueue T} {t : Nat} (h : s._tail = some t) :
    mcDequeueLight s = scDequeue s := by
  cases hg : s.mem[t]? with
  | none => simp [mcDequeueLight, scDequeue, h, hg]
  | some tn =>
      cases hx : tn.next with
      | none =>
          simp [mcDequeueLight, scDequeue, h, hg, hx]
          cases s
          simp_all
      | some nx => simp [mcDequeueLight, scDequeue, h, hg, hx]

theorem inv_mkQueue (d : T) : Inv (mkQueue d) [] 0 :=
  ⟨0, [], 1, [], rfl, rfl, rfl, rfl, ⟨⟨d, none⟩, rfl, rfl⟩, ⟨⟨d, none⟩, rfl, rfl⟩,
    List.Forall₂.nil, rfl, by decide⟩

theorem inv_tail_some {s : MPMCQueue T} {pending : List T} {flen : Nat}
    (h : Inv s pending flen) : ∃ t, s._tail = some t := by
  obtain ⟨t, _, _, _, htail, _⟩ := h
  exact ⟨t, htail⟩

theorem runOp_sim {s : MPMCQueue T} {pending : List T} {flen : Nat}
    (h : Inv s pending flen) (op : QOp T) :
    ∃ s1 e d pend1 flen1, runOp s op = some (s1, e, d) ∧ Inv s1 pend1 flen1 ∧
      pending ++ e = d ++ pend1 := by
  obtain ⟨t, htail⟩ := inv_tail_some h
  cases op with
  | spEnq v =>
      obtain ⟨s1, hrun, hinv, _⟩ := spEnqueue_sim h v
      exact ⟨s1, [v], [], pending ++ [v], flen - 1, by simp [runOp, hrun], hinv, by simp⟩
  | mpEnq v =>
      obtain ⟨s1, hrun, hinv, _⟩ := spEnqueue_sim h v
      exact ⟨s1, [v], [], pending ++ [v], flen - 1,
        by simp [runOp, mpEnqueue_eq_spEnqueue, hrun], hinv, by simp⟩
  | scDeq =>
      cases pending with
      | nil =>
          exact ⟨s, [], [], [], flen, by simp [runOp, scDequeue_sim_empty h], h, by simp⟩
      | cons v rest =>
          obtain ⟨s1, hrun, hinv, _⟩ := scDequeue_sim_cons h
          exact ⟨s1, [], [v], rest, flen + 1, by simp [runOp, hrun], hinv, by simp⟩
  | mcDeq =>
      cases pending with
      | nil =>
          exact ⟨s, [], [], [], flen,
            by simp [runOp, mcDequeue_eq_sc htail, scDequeue_sim_empty h], h, by simp⟩
      | cons v rest =>
          obtain ⟨s1, hrun, hinv, _⟩ := scDequeue_sim_cons h
          exact ⟨s1, [], [v], rest, flen + 1,
            by simp [runOp, mcDequeue_eq_sc htail, hrun], hinv, by simp⟩
  | mcDeqLight =>
      cases pending with
      | nil =>
          exact ⟨s, [], [], [], flen,
            by simp [runOp, mcDequeueLight_eq_sc htail, scDequeue_sim_empty h], h, by simp⟩
      | cons v rest =>
          obtain ⟨s1, hrun, hinv, _⟩ := scDequeue_sim_cons h
          exact ⟨s1, [], [v], rest, flen + 1,
            by simp [runOp, mcDequeueLight_eq_sc htail, hrun], hinv, by simp⟩

theorem runOps_sim : ∀ (ops : List (QOp T)) {s : MPMCQueue T} {pending : List T}
    {flen : Nat}, Inv s pending flen →
    ∃ s1 e d pend1 flen1, runOps s ops = some (s1, e, d) ∧ Inv s1 pend1 flen1 ∧
      pending ++ e = d ++ pend1 := by
  intro ops
  induction ops with
  | nil =>
      intro s pending flen h
      exact ⟨s, [], [], pending, flen, rfl, h, by simp⟩
  | cons op rest ih =>
      intro s pending flen h
      obtain ⟨s1, e1, d1, p1, f1, hrun1, hinv1, heq1⟩ := runOp_sim h op
      obtain ⟨s2, e2, d2, p2, f2, hrun2, hinv2, heq2⟩ := ih hinv1
      refine ⟨s2, e1 ++ e2, d1 ++ d2, p2, f2, ?_, hinv2, ?_⟩
      · simp [runOps, hrun1, hrun2]
      · calc pending ++ (e1 ++ e2) = (pending ++ e1) ++ e2 := by simp
          _ = (d1 ++ p1) ++ e2 := by rw [heq1]
          _ = d1 ++ (p1 ++ e2) := by simp
          _ = d1 ++ (d2 ++ p2) := by rw [heq2]
          _ = (d1 ++ d2) ++ p2 := by simp

theorem runOps_append (s : MPMCQueue T) (l1 l2 : List (QOp T)) :
    runOps s (l1 ++ l2) = (do
      let (s1, e1, d1) ← runOps s l1
      let (s2, e2, d2) ← runOps s1 l2
      pure (s2, e1 ++ e2, d1 ++ d2)) := by
  induction l1 generalizing s with
  | nil =>
      cases h2 : runOps s l2 with
      | none => simp [runOps, h2]
      | some p => obtain ⟨s2, e2, d2⟩ := p; simp [runOps, h2]
  | cons op l1 ih =>
      cases h1 : runOp s op with
      | none => simp [runOps, h1]
      | some p =>
          obtain ⟨s1, e1, d1⟩ := p
          cases hl : runOps s1 l1 with
          | none => simp [runOps, h1, ih, hl]
          | some q =>
              obtain ⟨sb, eb, db⟩ := q
              cases h2 : runOps sb l2 with
              | none => simp [runOps, h1, ih, hl, h2]
              | some r =>
                  obtain ⟨sc, ec, dc⟩ := r
                  simp [runOps, h1, ih, hl, h2]

theorem enqRun_sim : ∀ (vs : List T) {s : MPMCQueue T} {pending : List T} {flen : Nat},
    Inv s pending flen →
    ∃ s1, runOps s (vs.map QOp.spEnq) = some (s1, vs, []) ∧
      Inv s1 (pending ++ vs) (flen - vs.length) ∧
      s1.allocCount = s.allocCount + (vs.length - flen) := by
  intro vs
  induction vs with
  | nil =>
      intro s pending flen h
      exact ⟨s, rfl, by simpa using h, by simp⟩
  | cons v vs ih =>
      intro s pending flen h
      obtain ⟨s1, hrun1, hinv1, halloc1⟩ := spEnqueue_sim h v
      obtain ⟨s2, hrun2, hinv2, halloc2⟩ := ih hinv1
      refine ⟨s2, ?_, ?_, ?_⟩
      · simp [runOps, runOp, hrun1, hrun2]
      · have he1 : (pending ++ [v]) ++ vs = pending ++ (v :: vs) := by simp
        have he2 : flen - 1 - vs.length = flen - (v :: vs).length := by
          simp only [List.length_cons]; omega
        rw [he1, he2] at hinv2
        exact hinv2
      · rw [halloc2, halloc1]
        rcases Nat.eq_zero_or_pos flen with hf | hf
        · subst hf; simp; omega
        · have : ¬ flen = 0 := by omega
          simp only [this, if_false, List.length_cons]
          omega

theorem deqRun_sim : ∀ (pending : List T) {s : MPMCQueue T} {flen : Nat},
    Inv s pending flen →
    ∃ s1, runOps s (List.replicate pending.length QOp.scDeq) = some (s1, [], pending) ∧
      Inv s1 [] (flen + pending.length) ∧ s1.allocCount = s.allocCount := by
  intro pending
  induction pending with
  | nil =>
      intro s flen h
      exact ⟨s, rfl, by simpa using h, rfl⟩
  | cons v rest ih =>
      intro s flen h
      obtain ⟨s1, hrun1, hinv1, halloc1⟩ := scDequeue_sim_cons h
      obtain ⟨s2, hrun2, hinv2, halloc2⟩ := ih hinv1
      refine ⟨s2, ?_, ?_, by rw [halloc2, halloc1]⟩
      · simp [List.replicate_succ, runOps, runOp, hrun1, hrun2]
      · have he : flen + 1 + rest.length = flen + (v :: rest).length := by
          simp only [List.length_cons]; omega
        rw [he] at hinv2
        exact hinv2

theorem scDequeue_fail_eq {s : MPMCQueue T} {out : Option T} {s1 : MPMCQueue T}
    (h : scDequeue s = some (false, out, s1)) : out = none ∧ s1 = s := by
  cases ht : s._tail with
  | none => simp [scDequeue, ht] at h
  | some t =>
      cases hg : s.mem[t]? with
      | none => simp [scDequeue, ht, hg] at h
      | some tn =>
          cases hx : tn.next with
          | none =>
              simp [scDequeue, ht, hg, hx] at h
              exact ⟨h.1.symm, h.2.symm⟩
          | some nx =>
              cases hnd : s.mem[nx]? with
              | none => simp [scDequeue, ht, hg, hx, hnd] at h
              | some nd =>
                  cases hfl : freeListEnqueue { s with _tail := some nx } t with
                  | none => simp [scDequeue, ht, hg, hx, hnd, hfl] at h
                  | some s2 => simp [scDequeue, ht, hg, hx, hnd, hfl] at h

theorem mcDequeue_fail_eq {s : MPMCQueue T} {out : Option T} {s1 : MPMCQueue T}
    (h : mcDequeue s = some (false, out, s1)) : out = none ∧ s1 = s := by
  cases ht : s._tail with
  | none => simp [mcDequeue, ht] at h
  | some t =>
      rw [mcDequeue_eq_sc ht] at h
      exact scDequeue_fail_eq h

theorem mcDequeueLight_fail_eq {s : MPMCQueue T} {out : Option T} {s1 : MPMCQueue T}
    (h : mcDequeueLight s = some (false, out, s1)) : out = none ∧ s1 = s := by
  cases ht : s._tail with
  | none =>
      simp [mcDequeueLight, ht] at h
      exact ⟨h.1.symm, h.2.symm⟩
  | some t =>
      rw [mcDequeueLight_eq_sc ht] at h
      exact scDequeue_fail_eq h

end CONQ

namespace CONQ

/-- C1: Sequential round trip on the ULQ.  From a freshly constructed queue,
`spEnqueue 1`, `spEnqueue 2`, `spEnqueue 3`, then four `scDequeue` calls yield
(true, 1), (true, 2), (true, 3) in that order, and the fourth returns false
without writing the out-parameter. -/
theorem roundTrip_claim1 :
    (do
      let s1 ← spEnqueue (mkQueue (0 : Nat)) 1
      let s2 ← spEnqueue s1 2
      let s3 ← spEnqueue s2 3
      let (b1, o1, s4) ← scDequeue s3
      let (b2, o2, s5) ← scDequeue s4
      let (b3, o3, s6) ← scDequeue s5
      let (b4, o4, _) ← scDequeue s6
      pure [(b1, o1), (b2, o2), (b3, o3), (b4, o4)])
    = some [(true, some 1), (true, some 2), (true, some 3), (false, none)] := by
  decide

/-- C2: Conservation.  For every sequence of ULQ operations run from a fresh
queue, the run is defined, the multiset of successfully dequeued values is a
sub-multiset of the multiset of enqueued values, and if the final queue is
observably empty (a single-consumer dequeue reports false) the two multisets
are equal. -/
theorem conservation_claim2 {T : Type} (d : T) (ops : List (QOp T)) :
    ∃ sf enq deq, runOps (mkQueue d) ops = some (sf, enq, deq) ∧
      (deq : Multiset T) ≤ (enq : Multiset T) ∧
      ((∃ s2, scDequeue sf = some (false, none, s2)) →
        (deq : Multiset T) = (enq : Multiset T)) := by
  obtain ⟨s1, e, dq, pend, flen, hrun, hinv, heq⟩ := runOps_sim ops (inv_mkQueue d)
  have heq2 : e = dq ++ pend := by simpa using heq
  refine ⟨s1, e, dq, hrun, ?_, ?_⟩
  · rw [heq2]
    have : ((dq ++ pend : List T) : Multiset T) = (dq : Multiset T) + (pend : Multiset T) := by
      simp
    rw [this]
    exact le_add_right (le_refl _)
  · rintro ⟨s2, hempty⟩
    cases pend with
    | nil => rw [heq2]; simp
    | cons v rest =>
        obtain ⟨s3, hrun3, _, _⟩ := scDequeue_sim_cons hinv
        rw [hrun3] at hempty
        simp at hempty

/-- C3: For every state reached from a fresh ULQ by any sequence of the five
public operations (including the multi-consumer dequeues that exchange the tail
pointer), the head and the tail pointer words are non-null. -/
theorem nonnull_claim3 {T : Type} (d : T) (ops : List (QOp T)) :
    ∃ sf enq deq, runOps (mkQueue d) ops = some (sf, enq, deq) ∧
      sf._head ≠ none ∧ sf._tail ≠ none := by
  obtain ⟨s1, e, dq, pend, flen, hrun, hinv, _⟩ := runOps_sim ops (inv_mkQueue d)
  obtain ⟨t, mA, ft, fA, htail, hhead, _⟩ := hinv
  exact ⟨s1, e, dq, hrun, by simp [hhead], by simp [htail]⟩

/-- C4: mcDequeueLight returns true exactly when it removes the front element
and writes it to the out-parameter.  It returns false both when the tail slot
holds null (contention: a single failed attempt, returning immediately with the
state untouched) and when the queue is empty; in the success case the front
value is returned and the queue invariant is maintained with one more freelist
node. -/
theorem mcDequeueLight_claim4 {T : Type} (s : MPMCQueue T) (pending : List T)
    (flen : Nat) :
    (s._tail = none → mcDequeueLight s = some (false, none, s)) ∧
    (Inv s pending flen → pending = [] → mcDequeueLight s = some (false, none, s)) ∧
    (Inv s pending flen → ∀ v rest, pending = v :: rest →
      ∃ s2, mcDequeueLight s = some (true, some v, s2) ∧ Inv s2 rest (flen + 1)) := by
  refine ⟨?_, ?_, ?_⟩
  · intro ht
    simp [mcDequeueLight, ht]
  · intro hinv hp
    subst hp
    obtain ⟨t, htail⟩ := inv_tail_some hinv
    rw [mcDequeueLight_eq_sc htail]
    exact scDequeue_sim_empty hinv
  · intro hinv v rest hp
    subst hp
    obtain ⟨t, htail⟩ := inv_tail_some hinv
    obtain ⟨s2, hrun, hinv2, _⟩ := scDequeue_sim_cons hinv
    exact ⟨s2, by rw [mcDequeueLight_eq_sc htail]; exact hrun, hinv2⟩

/-- C4 witness: the empty-queue case at a concrete fresh queue. -/
theorem mcDequeueLight_claim4_witness :
    ((mkQueue (0 : Nat))._tail = none →
      mcDequeueLight (mkQueue 0) = some (false, none, mkQueue 0)) ∧
    (Inv (mkQueue (0 : Nat)) [] 0 → [] = ([] : List Nat) →
      mcDequeueLight (mkQueue 0) = some (false, none, mkQueue 0)) ∧
    (Inv (mkQueue (0 : Nat)) [] 0 → ∀ v rest, [] = v :: rest →
      ∃ s2, mcDequeueLight (mkQueue 0) = some (true, some v, s2) ∧
        Inv s2 rest (0 + 1)) :=
  mcDequeueLight_claim4 (mkQueue 0) [] 0

/-- C8: Freelist reuse.  A sequential run of the enqueues of `vs`, then
`vs.length` dequeues, then the enqueues of `ws` (with `ws.length = vs.length`)
on a fresh queue performs exactly `vs.length + 2` heap allocations in total
(the two constructor sentinels plus one per first-round enqueue); the second
round of enqueues allocates nothing because every dequeue parked its retired
node on the freelist. -/
theorem freelist_reuse_claim8 {T : Type} (d : T) (vs ws : List T)
    (hlen : ws.length = vs.length) :
    ∃ sf enq deq,
      runOps (mkQueue d)
        (vs.map QOp.spEnq ++ (List.replicate vs.length QOp.scDeq ++ ws.map QOp.spEnq)) =
        some (sf, enq, deq) ∧
      sf.allocCount = vs.length + 2 := by
  obtain ⟨s1, hrun1, hinv1, halloc1⟩ := enqRun_sim vs (inv_mkQueue d)
  have hinv1' : Inv s1 vs 0 := by simpa using hinv1
  have hlen1 : (List.replicate vs.length QOp.scDeq : List (QOp T)) =
      List.replicate (vs.length) QOp.scDeq := rfl
  obtain ⟨s2, hrun2, hinv2, halloc2⟩ := deqRun_sim vs hinv1'
  have hinv2' : Inv s2 [] vs.length := by simpa using hinv2
  obtain ⟨s3, hrun3, hinv3, halloc3⟩ := enqRun_sim ws hinv2'
  refine ⟨s3, vs ++ ([] ++ ws), [] ++ (vs ++ []), ?_, ?_⟩
  · simp [runOps_append, hrun1, hrun2, hrun3]
  · rw [halloc3, halloc2, halloc1]
    have h2 : (mkQueue d).allocCount = 2 := rfl
    rw [h2, hlen]
    omega

/-- C8 witness: one element per round. -/
theorem freelist_reuse_claim8_witness :
    ([7].length = [5].length) ∧
    (∃ sf enq deq,
      runOps (mkQueue (0 : Nat))
        ([5].map QOp.spEnq ++ (List.replicate [5].length QOp.scDeq ++ [7].map QOp.spEnq)) =
        some (sf, enq, deq) ∧
      sf.allocCount = [5].length + 2) :=
  ⟨rfl, freelist_reuse_claim8 0 [5] [7] rfl⟩

/-- C10: Atomicity of failed dequeues.  Whenever scDequeue, mcDequeue or
mcDequeueLight reports false, the out-parameter has not been written and the
queue state is exactly the state before the call (in particular the MC
dequeues restored the tail pointer they had taken). -/
theorem dequeue_fail_claim10 {T : Type} (s : MPMCQueue T) :
    (∀ out s1, scDequeue s = some (false, out, s1) → out = none ∧ s1 = s) ∧
    (∀ out s1, mcDequeue s = some (false, out, s1) → out = none ∧ s1 = s) ∧
    (∀ out s1, mcDequeueLight s = some (false, out, s1) → out = none ∧ s1 = s) :=
  ⟨fun _ _ h => scDequeue_fail_eq h,
   fun _ _ h => mcDequeue_fail_eq h,
   fun _ _ h => mcDequeueLight_fail_eq h⟩

/-- C10 witness: concrete instance at a fresh queue. -/
theorem dequeue_fail_claim10_witness :
    (∀ out s1, scDequeue (mkQueue (0 : Nat)) = some (false, out, s1) →
      out = none ∧ s1 = mkQueue 0) ∧
    (∀ out s1, mcDequeue (mkQueue (0 : Nat)) = some (false, out, s1) →
      out = none ∧ s1 = mkQueue 0) ∧
    (∀ out s1, mcDequeueLight (mkQueue (0 : Nat)) = some (false, out, s1) →
      out = none ∧ s1 = mkQueue 0) :=
  dequeue_fail_claim10 (mkQueue 0)

end CONQ

namespace bk_conq

theorem iterSwap_cons (c : Nat) (t : List Nat) (k i : Nat) :
    iterSwap (c :: t) (k + 1) (i + 1) = c :: iterSwap t k i := by
  unfold iterSwap
  simp only [List.getElem?_cons_succ]
  cases t[k]? <;> cases t[i]? <;> simp

theorem foldl_iterSwap_shift (r : List Nat) : ∀ (c : Nat) (t : List Nat) (k : Nat),
    List.foldl (fun acc i => iterSwap acc (k + 1) i) (c :: t) (r.map Nat.succ) =
    c :: List.foldl (fun acc i => iterSwap acc k i) t r := by
  induction r with
  | nil => intro c t k; rfl
  | cons i r ih =>
      intro c t k
      simp only [List.map_cons, List.foldl_cons]
      rw [show Nat.succ i = i + 1 from rfl, iterSwap_cons]
      exact ih c (iterSwap t k i) k

theorem hitlistUpdate_closed : ∀ (k : Nat) (l : List Nat) (h : k < l.length),
    hitlistUpdate l k = l[k] :: (l.take k ++ l.drop (k + 1)) := by
  intro k
  induction k with
  | zero =>
      intro l h
      cases l with
      | nil => simp at h
      | cons x xs => simp [hitlistUpdate]
  | succ k ih =>
      intro l h
      cases l with
      | nil => simp at h
      | cons x xs =>
          have hk : k < xs.length := by
            simpa using Nat.lt_of_succ_lt_succ h
          show (List.range (k + 1)).foldl (fun acc i => iterSwap acc (k + 1) i) (x :: xs) = _
          rw [List.range_succ_eq_map]
          simp only [List.foldl_cons]
          have h1 : iterSwap (x :: xs) (k + 1) 0 = xs[k] :: xs.set k x := by
            unfold iterSwap
            simp [List.getElem?_eq_getElem hk]
          rw [h1, foldl_iterSwap_shift]
          have h2 : k < (xs.set k x).length := by simpa using hk
          rw [show List.foldl (fun acc i => iterSwap acc k i) (xs.set k x) (List.range k) =
            hitlistUpdate (xs.set k x) k from rfl, ih _ h2]
          have h3 : (xs.set k x).take k = xs.take k := by
            rw [List.set_take]
            exact List.set_eq_of_length_le (by simp [Nat.min_le_left])
          have h4 : (xs.set k x).drop (k + 1) = xs.drop (k + 1) := by
            rw [List.drop_set]
            simp
          simp [h3, h4, List.getElem_set_self]

theorem hitlistUpdate_perm {k : Nat} {l : List Nat} (h : k < l.length) :
    (hitlistUpdate l k).Perm l := by
  rw [hitlistUpdate_closed k l h]
  have hsplit : l.take k ++ l[k] :: l.drop (k + 1) = l := by
    rw [← List.drop_eq_getElem_cons h]
    exact List.take_append_drop k l
  have hmid : (l[k] :: (l.take k ++ l.drop (k + 1))).Perm
      (l.take k ++ l[k] :: l.drop (k + 1)) := List.perm_middle.symm
  rw [hsplit] at hmid
  exact hmid

theorem hitlistUpdate_head {k : Nat} {l : List Nat} (h : k < l.length) :
    (hitlistUpdate l k)[0]? = l[k]? := by
  rw [hitlistUpdate_closed k l h]
  simp [List.getElem?_eq_getElem h]

theorem set_get_self {α : Type} : ∀ (l : List α) (i : Nat) (a : α),
    l[i]? = some a → l.set i a = l := by
  intro l
  induction l with
  | nil => intro i a h; simp at h
  | cons b t ih =>
      intro i a h
      cases i with
      | zero =>
          simp at h
          simp [h]
      | succ i =>
          simp at h
          simp [ih i a h]

theorem scanWith_fail {T : Type}
    {dq : CONQ.MPMCQueue T → Option (Bool × Option T × CONQ.MPMCQueue T)}
    (hfp : ∀ q out s2, dq q = some (false, out, s2) → out = none ∧ s2 = q)
    (hl : List Nat) :
    ∀ (rem : List Nat) (j : Nat) (qs : List (CONQ.MPMCQueue T)) (o : Option T)
      (qs' : List (CONQ.MPMCQueue T)) (hl' : List Nat),
      scanWith dq hl j qs rem = some (false, o, qs', hl') →
      o = none ∧ qs' = qs ∧ hl' = hl ∧
      ∀ i ∈ rem, ∃ q, qs[i]? = some q ∧ dq q = some (false, none, q) := by
  intro rem
  induction rem with
  | nil =>
      intro j qs o qs' hl' h
      simp [scanWith] at h
      exact ⟨h.1.symm, h.2.1.symm, h.2.2.symm, by simp⟩
  | cons i rest ih =>
      intro j qs o qs' hl' h
      cases hq : qs[i]? with
      | none => simp [scanWith, hq] at h
      | some q =>
          cases hdq : dq q with
          | none => simp [scanWith, hq, hdq] at h
          | some r =>
              obtain ⟨b, out, q1⟩ := r
              cases b with
              | true => simp [scanWith, hq, hdq] at h
              | false =>
                  have hstep : scanWith dq hl j qs (i :: rest) =
                      scanWith dq hl (j + 1) (qs.set i q1) rest := by
                    simp [scanWith, hq, hdq]
                  rw [hstep] at h
                  obtain ⟨ho, hq1⟩ := hfp q out q1 hdq
                  subst ho
                  rw [hq1] at hdq h
                  rw [set_get_self qs i q hq] at h
                  obtain ⟨ho2, hqs2, hhl2, hall⟩ := ih (j + 1) qs o qs' hl' h
                  refine ⟨ho2, hqs2, hhl2, ?_⟩
                  intro i2 hi2
                  rcases List.mem_cons.mp hi2 with he | hm
                  · exact ⟨q, he ▸ hq, hdq⟩
                  · exact hall i2 hm

theorem scanWith_success {T : Type}
    {dq : CONQ.MPMCQueue T → Option (Bool × Option T × CONQ.MPMCQueue T)}
    (hfp : ∀ q out s2, dq q = some (false, out, s2) → out = none ∧ s2 = q)
    (hl : List Nat) :
    ∀ (rem : List Nat) (j : Nat) (qs : List (CONQ.MPMCQueue T)) (out : Option T)
      (qs' : List (CONQ.MPMCQueue T)) (hl' : List Nat),
      scanWith dq hl j qs rem = some (true, out, qs', hl') →
      ∃ kk i q q1, rem[kk]? = some i ∧ qs[i]? = some q ∧
        dq q = some (true, out, q1) ∧ qs' = qs.set i q1 ∧
        hl' = hitlistUpdate hl (j + kk) ∧
        ∀ jj, jj < kk → ∃ i2 q2, rem[jj]? = some i2 ∧ qs[i2]? = some q2 ∧
          dq q2 = some (false, none, q2) := by
  intro rem
  induction rem with
  | nil =>
      intro j qs out qs' hl' h
      simp [scanWith] at h
  | cons i rest ih =>
      intro j qs out qs' hl' h
      cases hq : qs[i]? with
      | none => simp [scanWith, hq] at h
      | some q =>
          cases hdq : dq q with
          | none => simp [scanWith, hq, hdq] at h
          | some r =>
              obtain ⟨b, out2, q1⟩ := r
              cases b with
              | true =>
                  have hstep : scanWith dq hl j qs (i :: rest) =
                      some (true, out2, qs.set i q1, hitlistUpdate hl j) := by
                    simp [scanWith, hq, hdq]
                  rw [hstep] at h
                  obtain ⟨hb, ho, hqs, hhl⟩ : out2 = out ∧ qs.set i q1 = qs' ∧
                      hitlistUpdate hl j = hl' ∧ True := by
                    simpa using h
                  refine ⟨0, i, q, q1, by simp, hq, by rw [hdq, hb], ho.symm, ?_, ?_⟩
                  · rw [← hqs]
                    simp
                  · intro jj hjj
                    omega
              | false =>
                  have hstep : scanWith dq hl j qs (i :: rest) =
                      scanWith dq hl (j + 1) (qs.set i q1) rest := by
                    simp [scanWith, hq, hdq]
                  rw [hstep] at h
                  obtain ⟨ho, hq1⟩ := hfp q out2 q1 hdq
                  subst ho
                  rw [hq1] at hdq h
                  rw [set_get_self qs i q hq] at h
                  obtain ⟨kk, i3, q3, q4, hrem, hq3, hdq3, hqs3, hhl3, hprev⟩ :=
                    ih (j + 1) qs out qs' hl' h
                  refine ⟨kk + 1, i3, q3, q4, by simpa using hrem, hq3, hdq3, hqs3, ?_, ?_⟩
                  · rw [hhl3]
                    congr 1
                    omega
                  · intro jj hjj
                    cases jj with
                    | zero => exact ⟨i, q, by simp, hq, hdq⟩
                    | succ jj2 =>
                        obtain ⟨i2, q2, h1, h2, h3⟩ := hprev jj2 (by omega)
                        exact ⟨i2, q2, by simpa using h1, h2, h3⟩

/-- C5: The SAQ no-index mc_dequeue makes at most two passes over the hitlist:
(i) a first-pass hit is returned as is, with no second pass; (ii) when the
first (light, non-spinning) pass fails on every subqueue it leaves the queues
and hitlist unchanged and only then the spinning pass runs; (iii) false is
returned only when both passes failed on every subqueue; (iv) a true result
carries the element of the first subqueue of the deciding pass that succeeded,
with the hitlist updated at that hit position. -/
theorem mc_dequeue_claim5 {T : Type} (qs : List (CONQ.MPMCQueue T)) (hl : List Nat) :
    (∀ out qs1 hl1,
      scanWith CONQ.mcDequeueLight hl 0 qs hl = some (true, out, qs1, hl1) →
      mc_dequeue qs hl = some (true, out, qs1, hl1)) ∧
    (∀ o qs1 hl1,
      scanWith CONQ.mcDequeueLight hl 0 qs hl = some (false, o, qs1, hl1) →
      o = none ∧ qs1 = qs ∧ hl1 = hl ∧ (∀ i ∈ hl, lightFailsAt qs i) ∧
      mc_dequeue qs hl = scanWith CONQ.mcDequeue hl 0 qs hl) ∧
    (∀ o qs' hl', mc_dequeue qs hl = some (false, o, qs', hl') →
      o = none ∧ qs' = qs ∧ hl' = hl ∧
      ∀ i ∈ hl, lightFailsAt qs i ∧ spinFailsAt qs i) ∧
    (∀ out qs' hl', mc_dequeue qs hl = some (true, out, qs', hl') →
      ∃ kk i q q1, hl[kk]? = some i ∧ qs[i]? = some q ∧ qs' = qs.set i q1 ∧
        hl' = hitlistUpdate hl kk ∧
        ((CONQ.mcDequeueLight q = some (true, out, q1) ∧
          ∀ jj, jj < kk → ∃ i2, hl[jj]? = some i2 ∧ lightFailsAt qs i2) ∨
         ((∀ i2 ∈ hl, lightFailsAt qs i2) ∧
          CONQ.mcDequeue q = some (true, out, q1) ∧
          ∀ jj, jj < kk → ∃ i2, hl[jj]? = some i2 ∧ spinFailsAt qs i2))) := by
  have hfpL : ∀ (q : CONQ.MPMCQueue T) out s2,
      CONQ.mcDequeueLight q = some (false, out, s2) → out = none ∧ s2 = q :=
    fun _ _ _ h => CONQ.mcDequeueLight_fail_eq h
  have hfpS : ∀ (q : CONQ.MPMCQueue T) out s2,
      CONQ.mcDequeue q = some (false, out, s2) → out = none ∧ s2 = q :=
    fun _ _ _ h => CONQ.mcDequeue_fail_eq h
  refine ⟨?_, ?_, ?_, ?_⟩
  · intro out qs1 hl1 hscan
    simp [mc_dequeue, hscan]
  · intro o qs1 hl1 hscan
    obtain ⟨ho, hqs, hhl, hall⟩ := scanWith_fail hfpL hl hl 0 qs o qs1 hl1 hscan
    subst o qs1 hl1
    exact ⟨rfl, rfl, rfl, fun i hi => hall i hi, by simp [mc_dequeue, hscan]⟩
  · intro o qs' hl' h
    cases hscan : scanWith CONQ.mcDequeueLight hl 0 qs hl with
    | none => simp [mc_dequeue, hscan] at h
    | some r =>
        obtain ⟨b, o2, qs1, hl1⟩ := r
        cases b with
        | true => simp [mc_dequeue, hscan] at h
        | false =>
            obtain ⟨ho2, hqs1, hhl1, hallL⟩ :=
              scanWith_fail hfpL hl hl 0 qs o2 qs1 hl1 hscan
            subst o2 qs1 hl1
            have h2 : scanWith CONQ.mcDequeue hl 0 qs hl = some (false, o, qs', hl') := by
              simpa [mc_dequeue, hscan] using h
            obtain ⟨ho, hqs', hhl', hallS⟩ :=
              scanWith_fail hfpS hl hl 0 qs o qs' hl' h2
            exact ⟨ho, hqs', hhl', fun i hi => ⟨hallL i hi, hallS i hi⟩⟩
  · intro out qs' hl' h
    cases hscan : scanWith CONQ.mcDequeueLight hl 0 qs hl with
    | none => simp [mc_dequeue, hscan] at h
    | some r =>
        obtain ⟨b, o2, qs1, hl1⟩ := r
        cases b with
        | true =>
            have he : o2 = out ∧ qs1 = qs' ∧ hl1 = hl' := by
              simpa [mc_dequeue, hscan] using h
            obtain ⟨rfl, rfl, rfl⟩ := he
            obtain ⟨kk, i, q, q1, hrem, hq, hdq, hqs, hhl, hprev⟩ :=
              scanWith_success hfpL hl hl 0 qs o2 qs1 hl1 hscan
            refine ⟨kk, i, q, q1, hrem, hq, hqs, by simpa using hhl, Or.inl ⟨hdq, ?_⟩⟩
            intro jj hjj
            obtain ⟨i2, q2, h1, h2, h3⟩ := hprev jj hjj
            exact ⟨i2, h1, q2, h2, h3⟩
        | false =>
            obtain ⟨ho2, hqs1, hhl1, hallL⟩ :=
              scanWith_fail hfpL hl hl 0 qs o2 qs1 hl1 hscan
            subst o2 qs1 hl1
            have h2 : scanWith CONQ.mcDequeue hl 0 qs hl = some (true, out, qs', hl') := by
              simpa [mc_dequeue, hscan] using h
            obtain ⟨kk, i, q, q1, hrem, hq, hdq, hqs, hhl, hprev⟩ :=
              scanWith_success hfpS hl hl 0 qs out qs' hl' h2
            refine ⟨kk, i, q, q1, hrem, hq, hqs, by simpa using hhl,
              Or.inr ⟨fun i2 hi2 => hallL i2 hi2, hdq, ?_⟩⟩
            intro jj hjj
            obtain ⟨i2, q2, h1, h2, h3⟩ := hprev jj hjj
            exact ⟨i2, h1, q2, h2, h3⟩

/-- C5 witness: a concrete one-subqueue instance. -/
theorem mc_dequeue_claim5_witness :
    (∀ out qs1 hl1,
      scanWith CONQ.mcDequeueLight [0] 0 [CONQ.mkQueue (0 : Nat)] [0] =
        some (true, out, qs1, hl1) →
      mc_dequeue [CONQ.mkQueue (0 : Nat)] [0] = some (true, out, qs1, hl1)) ∧
    (∀ o qs1 hl1,
      scanWith CONQ.mcDequeueLight [0] 0 [CONQ.mkQueue (0 : Nat)] [0] =
        some (false, o, qs1, hl1) →
      o = none ∧ qs1 = [CONQ.mkQueue 0] ∧ hl1 = [0] ∧
      (∀ i ∈ [0], lightFailsAt [CONQ.mkQueue (0 : Nat)] i) ∧
      mc_dequeue [CONQ.mkQueue (0 : Nat)] [0] =
        scanWith CONQ.mcDequeue [0] 0 [CONQ.mkQueue 0] [0]) ∧
    (∀ o qs' hl', mc_dequeue [CONQ.mkQueue (0 : Nat)] [0] = some (false, o, qs', hl') →
      o = none ∧ qs' = [CONQ.mkQueue 0] ∧ hl' = [0] ∧
      ∀ i ∈ [0], lightFailsAt [CONQ.mkQueue (0 : Nat)] i ∧
        spinFailsAt [CONQ.mkQueue (0 : Nat)] i) ∧
    (∀ out qs' hl', mc_dequeue [CONQ.mkQueue (0 : Nat)] [0] = some (true, out, qs', hl') →
      ∃ kk i q q1, ([0] : List Nat)[kk]? = some i ∧
        ([CONQ.mkQueue (0 : Nat)])[i]? = some q ∧ qs' = [CONQ.mkQueue 0].set i q1 ∧
        hl' = hitlistUpdate [0] kk ∧
        ((CONQ.mcDequeueLight q = some (true, out, q1) ∧
          ∀ jj, jj < kk → ∃ i2, ([0] : List Nat)[jj]? = some i2 ∧
            lightFailsAt [CONQ.mkQueue (0 : Nat)] i2) ∨
         ((∀ i2 ∈ [0], lightFailsAt [CONQ.mkQueue (0 : Nat)] i2) ∧
          CONQ.mcDequeue q = some (true, out, q1) ∧
          ∀ jj, jj < kk → ∃ i2, ([0] : List Nat)[jj]? = some i2 ∧
            spinFailsAt [CONQ.mkQueue (0 : Nat)] i2))) :=
  mc_dequeue_claim5 [CONQ.mkQueue 0] [0]

/-- C6: Updating a hitlist that is a permutation of 0..N-1 at a hit position k
yields a permutation of 0..N-1 whose first element is the hit subqueue index;
and the SAQ single-consumer scan attempts subqueues in hitlist order, returning
on the first subqueue whose dequeue succeeds (all earlier hitlist entries
having failed), updating the hitlist at the hit position. -/
theorem hitlist_claim6 {T : Type} (N k : Nat) (hl : List Nat)
    (hperm : hl.Perm (List.range N)) (hk : k < hl.length) :
    (hitlistUpdate hl k).Perm (List.range N) ∧
    (hitlistUpdate hl k)[0]? = hl[k]? ∧
    (∀ (qs : List (CONQ.MPMCQueue T)) (out : Option T) qs' hl',
      sc_dequeue qs hl = some (true, out, qs', hl') →
      ∃ kk i q q1, hl[kk]? = some i ∧ qs[i]? = some q ∧
        CONQ.scDequeue q = some (true, out, q1) ∧ qs' = qs.set i q1 ∧
        hl' = hitlistUpdate hl kk ∧
        ∀ jj, jj < kk → ∃ i2 q2, hl[jj]? = some i2 ∧ qs[i2]? = some q2 ∧
          CONQ.scDequeue q2 = some (false, none, q2)) := by
  have hfp : ∀ (q : CONQ.MPMCQueue T) out s2,
      CONQ.scDequeue q = some (false, out, s2) → out = none ∧ s2 = q :=
    fun _ _ _ h => CONQ.scDequeue_fail_eq h
  refine ⟨(hitlistUpdate_perm hk).trans hperm, hitlistUpdate_head hk, ?_⟩
  intro qs out qs' hl' h
  obtain ⟨kk, i, q, q1, hrem, hq, hdq, hqs, hhl, hprev⟩ :=
    scanWith_success hfp hl hl 0 qs out qs' hl' h
  exact ⟨kk, i, q, q1, hrem, hq, hdq, hqs, by simpa using hhl, hprev⟩

/-- C6 witness: the two-element hitlist [1, 0] with a hit at position 1. -/
theorem hitlist_claim6_witness :
    ((hitlistUpdate [1, 0] 1).Perm (List.range 2) ∧
    (hitlistUpdate [1, 0] 1)[0]? = ([1, 0] : List Nat)[1]? ∧
    (∀ (qs : List (CONQ.MPMCQueue Nat)) (out : Option Nat) qs' hl',
      sc_dequeue qs [1, 0] = some (true, out, qs', hl') →
      ∃ kk i q q1, ([1, 0] : List Nat)[kk]? = some i ∧ qs[i]? = some q ∧
        CONQ.scDequeue q = some (true, out, q1) ∧ qs' = qs.set i q1 ∧
        hl' = hitlistUpdate [1, 0] kk ∧
        ∀ jj, jj < kk → ∃ i2 q2, ([1, 0] : List Nat)[jj]? = some i2 ∧
          qs[i2]? = some q2 ∧ CONQ.scDequeue q2 = some (false, none, q2))) :=
  hitlist_claim6 2 1 [1, 0] (by decide) (by decide)

theorem mpEnqueue_some {T : Type} {q : CONQ.MPMCQueue T} {p : List T} {f : Nat}
    (h : CONQ.Inv q p f) (v : T) :
    ∃ q1, CONQ.mpEnqueue q v = some q1 ∧ CONQ.Inv q1 (p ++ [v]) (f - 1) := by
  obtain ⟨q1, hs, hinv, _⟩ := CONQ.spEnqueue_sim h v
  exact ⟨q1, by rw [CONQ.mpEnqueue_eq_spEnqueue]; exact hs, hinv⟩

theorem QsValid_set {T : Type} {qs : List (CONQ.MPMCQueue T)} (h : QsValid qs)
    {q1 : CONQ.MPMCQueue T} (hq1 : ∃ p f, CONQ.Inv q1 p f) (i : Nat) :
    QsValid (qs.set i q1) := by
  unfold QsValid
  intro j q hj
  by_cases hij : i = j
  · subst hij
    rw [List.getElem?_set] at hj
    simp only [if_pos rfl] at hj
    by_cases hlt : i < qs.length
    · rw [if_pos hlt] at hj
      obtain rfl : q1 = q := Option.some_inj.mp hj
      exact hq1
    · rw [if_neg hlt] at hj
      exact absurd hj (by simp)
  · rw [List.getElem?_set_ne hij] at hj
    exact h j q hj

theorem QsValid_mk {T : Type} (d : T) (n : Nat) :
    QsValid (List.replicate n (CONQ.mkQueue d)) := by
  unfold QsValid
  intro i q h
  rw [List.getElem?_replicate] at h
  by_cases hi : i < n
  · rw [if_pos hi] at h
    obtain rfl : CONQ.mkQueue d = q := Option.some_inj.mp h
    exact ⟨[], 0, CONQ.inv_mkQueue d⟩
  · rw [if_neg hi] at h
    exact absurd h (by simp)

theorem lookup_cons_self (a b : Nat) (es : List (Nat × Nat)) :
    ((a, b) :: es).lookup a = some b := by
  simp [List.lookup_cons]

theorem lookup_cons_ne {a k : Nat} (h : a ≠ k) (b : Nat) (es : List (Nat × Nat)) :
    ((k, b) :: es).lookup a = es.lookup a := by
  rw [List.lookup_cons, show (a == k) = false from by simp [h]]

theorem lookup_none_not_mem : ∀ {l : List (Nat × Nat)} {a : Nat},
    l.lookup a = none → a ∉ l.map Prod.fst := by
  intro l
  induction l with
  | nil => intro a _; simp
  | cons p es ih =>
      intro a h
      obtain ⟨k, b⟩ := p
      by_cases hak : a = k
      · subst hak
        rw [lookup_cons_self] at h
        exact absurd h (by simp)
      · rw [lookup_cons_ne hak] at h
        simp only [List.map_cons, List.mem_cons]
        rintro (he | hm)
        · exact hak he
        · exact ih h hm

theorem lookup_some_mem : ∀ {l : List (Nat × Nat)} {a i : Nat},
    l.lookup a = some i → a ∈ l.map Prod.fst := by
  intro l
  induction l with
  | nil => intro a i h; simp at h
  | cons p es ih =>
      intro a i h
      obtain ⟨k, b⟩ := p
      by_cases hak : a = k
      · subst hak; simp
      · rw [lookup_cons_ne hak] at h
        simp only [List.map_cons, List.mem_cons]
        exact Or.inr (ih h)

theorem runMp_gen {T : Type} : ∀ (calls : List (Nat × T)) (m : multilist_vector_queue T),
    0 < m._q.length →
    QsValid m._q →
    (∀ tid i, m.mpIndx.lookup tid = some i → i < m._q.length) →
    ∃ m', runMpEnqueues m calls = some m' ∧
      m'._q.length = m._q.length ∧
      m'._enqueue_indx = m._enqueue_indx +
        (distinctFirsts (m.mpIndx.map Prod.fst) (calls.map Prod.fst)).length ∧
      (∀ tid i, m.mpIndx.lookup tid = some i → m'.mpIndx.lookup tid = some i) ∧
      (∀ k tid,
        (distinctFirsts (m.mpIndx.map Prod.fst) (calls.map Prod.fst))[k]? = some tid →
        m'.mpIndx.lookup tid = some ((m._enqueue_indx + k) % m._q.length)) := by
  intro calls
  induction calls with
  | nil =>
      intro m hN hval hbound
      exact ⟨m, rfl, rfl, by simp [distinctFirsts], fun tid i h => h,
        by simp [distinctFirsts]⟩
  | cons c rest ih =>
      obtain ⟨tid, v⟩ := c
      intro m hN hval hbound
      cases hlk : m.mpIndx.lookup tid with
      | some i =>
          have hiN : i < m._q.length := hbound tid i hlk
          obtain ⟨q, hq⟩ : ∃ q, m._q[i]? = some q :=
            ⟨m._q[i], List.getElem?_eq_getElem hiN⟩
          obtain ⟨p, f, hinv⟩ := hval i q hq
          obtain ⟨q1, hq1, hinv1⟩ := mpEnqueue_some hinv v
          have hstep : mp_enqueue_forward m tid v =
              some { m with _q := m._q.set i q1 } := by
            simp [mp_enqueue_forward, hlk, hq, hq1]
          have hmem : tid ∈ m.mpIndx.map Prod.fst := lookup_some_mem hlk
          obtain ⟨m', hrun, hlen, hcnt, hpers, hassign⟩ :=
            ih { m with _q := m._q.set i q1 }
              (by simpa using hN)
              (QsValid_set hval ⟨_, _, hinv1⟩ i)
              (by intro tid0 i0 h0; simp only [List.length_set]; exact hbound tid0 i0 h0)
          refine ⟨m', ?_, ?_, ?_, ?_, ?_⟩
          · simp [runMpEnqueues, hstep, hrun]
          · simpa using hlen
          · rw [hcnt]
            simp [distinctFirsts, hmem]
          · intro tid0 i0 h0
            exact hpers tid0 i0 h0
          · intro k tid0 hk
            have hk2 : (distinctFirsts (m.mpIndx.map Prod.fst) (rest.map Prod.fst))[k]? =
                some tid0 := by
              simpa [distinctFirsts, hmem] using hk
            have := hassign k tid0 hk2
            simpa using this
      | none =>
          have hmem : tid ∉ m.mpIndx.map Prod.fst := lookup_none_not_mem hlk
          have hidx : m._enqueue_indx % m._q.length < m._q.length :=
            Nat.mod_lt _ hN
          obtain ⟨q, hq⟩ : ∃ q, m._q[m._enqueue_indx % m._q.length]? = some q :=
            ⟨m._q[m._enqueue_indx % m._q.length], List.getElem?_eq_getElem hidx⟩
          obtain ⟨p, f, hinv⟩ := hval _ q hq
          obtain ⟨q1, hq1, hinv1⟩ := mpEnqueue_some hinv v
          have hstep : mp_enqueue_forward m tid v =
              some { m with
                _q := m._q.set (m._enqueue_indx % m._q.length) q1
                _enqueue_indx := m._enqueue_indx + 1
                mpIndx := (tid, m._enqueue_indx % m._q.length) :: m.mpIndx } := by
            simp [mp_enqueue_forward, hlk, hq, hq1]
          obtain ⟨m', hrun, hlen, hcnt, hpers, hassign⟩ :=
            ih { m with
                _q := m._q.set (m._enqueue_indx % m._q.length) q1
                _enqueue_indx := m._enqueue_indx + 1
                mpIndx := (tid, m._enqueue_indx % m._q.length) :: m.mpIndx }
              (by simpa using hN)
              (QsValid_set hval ⟨_, _, hinv1⟩ _)
              (by
                intro tid0 i0 h0
                simp only [List.length_set]
                by_cases htt : tid0 = tid
                · subst htt
                  rw [lookup_cons_self] at h0
                  obtain rfl : m._enqueue_indx % m._q.length = i0 :=
                    Option.some_inj.mp h0
                  exact hidx
                · rw [lookup_cons_ne htt] at h0
                  exact hbound tid0 i0 h0)
          refine ⟨m', ?_, ?_, ?_, ?_, ?_⟩
          · simp [runMpEnqueues, hstep, hrun]
          · simpa using hlen
          · rw [hcnt]
            simp only [List.map_cons, distinctFirsts, if_neg hmem, List.length_cons]
            omega
          · intro tid0 i0 h0
            have htt : tid0 ≠ tid := by
              intro he
              rw [he, hlk] at h0
              exact absurd h0 (by simp)
            refine hpers tid0 i0 ?_
            rw [lookup_cons_ne htt]
            exact h0
          · intro k tid0 hk
            have hk1 : (tid :: distinctFirsts (tid :: m.mpIndx.map Prod.fst)
                (rest.map Prod.fst))[k]? = some tid0 := by
              simpa [distinctFirsts, if_neg hmem] using hk
            cases k with
            | zero =>
                obtain rfl : tid = tid0 := by simpa using hk1
                have h2 := hpers tid (m._enqueue_indx % m._q.length)
                  (by rw [lookup_cons_self])
                rw [h2]
                simp
            | succ k2 =>
                have hk3 : (distinctFirsts (tid :: m.mpIndx.map Prod.fst)
                    (rest.map Prod.fst))[k2]? = some tid0 := by simpa using hk1
                have := hassign k2 tid0 (by simpa using hk3)
                rw [this]
                simp only [List.length_set]
                congr 2
                omega

/-- C7, as amended: SAQ producer routing, scoped to one instantiation of the
auto-routed enqueue template.  The original claim's "that index is reused for
every later auto-routed enqueue from the same thread" fails on the code
because each forward template (sp_enqueue_forward vs mp_enqueue_forward, and
each instantiation of either) has its own thread_local cache and consumes its
own counter slot — see `producer_routing_claim7_counterexample`.  What does
hold: (i) in a run whose auto-routed enqueues all go through one
mp_enqueue_forward instantiation on a fresh SAQ with N subqueues, the shared
counter ends at the number of distinct producer threads, and the k-th distinct
thread (in order of first enqueue) is assigned subqueue index k mod N by the
fetch-and-increment and keeps that cached index for the rest of the run;
(ii) a thread with a cached index enqueues through the ULQ multi-producer
enqueue into exactly that subqueue, touching neither the counter nor any
cache; (iii) the explicit-index overload bypasses the assignment entirely and
enqueues into exactly the given subqueue. -/
theorem producer_routing_claim7 {T : Type} (d : T) (N : Nat) (hN : 0 < N)
    (calls : List (Nat × T)) :
    (∃ m', runMpEnqueues (mkMLQ d N) calls = some m' ∧
      m'._enqueue_indx = (distinctFirsts [] (calls.map Prod.fst)).length ∧
      ∀ k tid, (distinctFirsts [] (calls.map Prod.fst))[k]? = some tid →
        m'.mpIndx.lookup tid = some (k % N)) ∧
    (∀ (m : multilist_vector_queue T) (tid : Nat) (v : T) (i : Nat),
      m.mpIndx.lookup tid = some i →
      mp_enqueue_forward m tid v = (do
        let q ← m._q[i]?
        let q1 ← CONQ.mpEnqueue q v
        pure { m with _q := m._q.set i q1 })) ∧
    (∀ (m : multilist_vector_queue T) (v : T) (idx : Nat) (m' : multilist_vector_queue T),
      mp_enqueue_at m v idx = some m' →
      ∃ q q1, m._q[idx]? = some q ∧ CONQ.mpEnqueue q v = some q1 ∧
        m' = { m with _q := m._q.set idx q1 }) := by
  refine ⟨?_, ?_, ?_⟩
  · obtain ⟨m', hrun, hlen, hcnt, hpers, hassign⟩ := runMp_gen calls (mkMLQ d N)
      (by simp [mkMLQ, hN]) (QsValid_mk d N) (by intro tid i h; simp [mkMLQ] at h)
    refine ⟨m', hrun, ?_, ?_⟩
    · simpa [mkMLQ] using hcnt
    · intro k tid hk
      have := hassign k tid (by simpa [mkMLQ] using hk)
      simpa [mkMLQ] using this
  · intro m tid v i h
    simp [mp_enqueue_forward, h]
  · intro m v idx m' h
    cases hq : m._q[idx]? with
    | none => simp [mp_enqueue_at, hq] at h
    | some q =>
        cases hq1 : CONQ.mpEnqueue q v with
        | none => simp [mp_enqueue_at, hq, hq1] at h
        | some q1 =>
            refine ⟨q, q1, rfl, hq1, ?_⟩
            have h2 : mp_enqueue_at m v idx = some { m with _q := m._q.set idx q1 } := by
              simp [mp_enqueue_at, hq, hq1]
            rw [h2] at h
            exact (Option.some_inj.mp h).symm

/-- C7 witness: two subqueues and four enqueues from three distinct threads. -/
theorem producer_routing_claim7_witness :
    ((∃ m', runMpEnqueues (mkMLQ (0 : Nat) 2) [(5, 10), (6, 11), (5, 12), (7, 13)] =
        some m' ∧
      m'._enqueue_indx =
        (distinctFirsts []
          (([(5, 10), (6, 11), (5, 12), (7, 13)] : List (Nat × Nat)).map Prod.fst)).length ∧
      ∀ k tid, (distinctFirsts []
          (([(5, 10), (6, 11), (5, 12), (7, 13)] : List (Nat × Nat)).map Prod.fst))[k]? =
            some tid →
        m'.mpIndx.lookup tid = some (k % 2)) ∧
    (∀ (m : multilist_vector_queue Nat) (tid : Nat) (v : Nat) (i : Nat),
      m.mpIndx.lookup tid = some i →
      mp_enqueue_forward m tid v = (do
        let q ← m._q[i]?
        let q1 ← CONQ.mpEnqueue q v
        pure { m with _q := m._q.set i q1 })) ∧
    (∀ (m : multilist_vector_queue Nat) (v : Nat) (idx : Nat)
        (m' : multilist_vector_queue Nat),
      mp_enqueue_at m v idx = some m' →
      ∃ q q1, m._q[idx]? = some q ∧ CONQ.mpEnqueue q v = some q1 ∧
        m' = { m with _q := m._q.set idx q1 })) :=
  producer_routing_claim7 0 2 (by decide) [(5, 10), (6, 11), (5, 12), (7, 13)]

/-- C7 counterexample to the claim as stated: on a fresh two-subqueue SAQ,
thread 0's first auto-routed enqueue (through mp_enqueue_forward) is assigned
and caches index 0, yet a later auto-routed enqueue from the same thread
(through sp_enqueue_forward, whose template has its own thread_local cache and
takes the next counter slot) leaves subqueue 0 untouched and enqueues into
subqueue 1 — the assigned index is not reused for every later auto-routed
enqueue from that thread. -/
theorem producer_routing_claim7_counterexample :
    (do
      let m1 ← mp_enqueue_forward (mkMLQ (0 : Nat) 2) 0 5
      let m2 ← sp_enqueue_forward m1 0 6
      pure (m1.mpIndx.lookup 0, decide (m2._q[0]? = m1._q[0]?),
        decide (m2._q[1]? = m1._q[1]?)))
    = some (some 0, true, false) := by
  decide

/-- C9 counterexample: sp_enqueue_forward and mp_enqueue_forward each have
their own thread_local index cache, so a state in which the two caches of a
thread hold different indices (reachable by one mp_enqueue and then one
sp_enqueue from the same thread on a two-subqueue SAQ) makes the same call
enqueue into different subqueues. -/
theorem sp_mp_claim9_counterexample :
    sp_enqueue_forward
      ({ _q := [CONQ.mkQueue 0, CONQ.mkQueue 0], _enqueue_indx := 2,
         spIndx := [(0, 1)], mpIndx := [(0, 0)] } : multilist_vector_queue Nat) 0 5 ≠
    mp_enqueue_forward
      ({ _q := [CONQ.mkQueue 0, CONQ.mkQueue 0], _enqueue_indx := 2,
         spIndx := [(0, 1)], mpIndx := [(0, 0)] } : multilist_vector_queue Nat) 0 5 := by
  decide

/-- C9 amended: both sp_enqueue overloads delegate to the subqueue
multi-producer enqueue, never the single-producer one; the explicit-index
overloads of sp_enqueue and mp_enqueue are the very same function, and the
auto-routed overloads perform the same transformation of the subqueue vector
and shared counter whenever the calling thread's two private caches agree —
they differ only in which thread_local cache they consult and update. -/
theorem sp_mp_claim9 {T : Type} :
    (∀ (m : multilist_vector_queue T) (v : T) (idx : Nat),
      sp_enqueue_at m v idx = mp_enqueue_at m v idx) ∧
    (∀ (m : multilist_vector_queue T) (tid : Nat) (v : T),
      m.spIndx.lookup tid = m.mpIndx.lookup tid →
      Option.map (fun m' => (m'._q, m'._enqueue_indx)) (sp_enqueue_forward m tid v) =
      Option.map (fun m' => (m'._q, m'._enqueue_indx)) (mp_enqueue_forward m tid v)) := by
  refine ⟨fun m v idx => rfl, ?_⟩
  intro m tid v h
  unfold sp_enqueue_forward mp_enqueue_forward
  rw [← h]
  cases hlk : m.spIndx.lookup tid with
  | some i =>
      cases hq : m._q[i]? with
      | none => simp [hq]
      | some q =>
          cases hq1 : CONQ.mpEnqueue q v with
          | none => simp [hq, hq1]
          | some q1 => simp [hq, hq1]
  | none =>
      cases hq : m._q[m._enqueue_indx % m._q.length]? with
      | none => simp [hq]
      | some q =>
          cases hq1 : CONQ.mpEnqueue q v with
          | none => simp [hq, hq1]
          | some q1 => simp [hq, hq1]

/-- C9 amended witness: instance at the value type Nat. -/
theorem sp_mp_claim9_witness :
    (∀ (m : multilist_vector_queue Nat) (v : Nat) (idx : Nat),
      sp_enqueue_at m v idx = mp_enqueue_at m v idx) ∧
    (∀ (m : multilist_vector_queue Nat) (tid : Nat) (v : Nat),
      m.spIndx.lookup tid = m.mpIndx.lookup tid →
      Option.map (fun m' => (m'._q, m'._enqueue_indx)) (sp_enqueue_forward m tid v) =
      Option.map (fun m' => (m'._q, m'._enqueue_indx)) (mp_enqueue_forward m tid v)) :=
  sp_mp_claim9

end bk_conq
